import Mathlib

/-!
Shallow embedding of the constexpr format-string engine
(`constexpr_format.hpp`): the `string_view` slice type, the printf-style
pattern parser, the argument validator and the renderer, together with
theorems about them.

Machine integers of the source are modelled as `Int` with the C++
truncating division and remainder (`Int.tdiv`, `Int.tmod`); sizes and
indices are `Nat`.  Compile-time failures of the source (missing overload,
failing `static_assert`) are modelled as `Option`/`Except` error values.
-/

/-- Source: `util::string_view` — a non-owning view `{const char* data; size_t n}`.
The data pointer is modelled as the underlying character array `base`
together with an offset `ptr`; the view denotes `n` characters starting at
`base[ptr]`. -/
structure string_view where
  base : List Char
  ptr : Nat
  n : Nat
deriving DecidableEq

namespace string_view

/-- Source: `string_view::size()`. -/
def size (s : string_view) : Nat := s.n

/-- Source: `string_view::operator[]` — reads `data[i]`.  Reading outside
`base` is undefined behaviour in C++ and never happens in the modelled
uses (views built from null-terminated literals); the fallback character
is arbitrary. -/
def get (s : string_view) (i : Nat) : Char := s.base.getD (s.ptr + i) (Char.ofNat 0)

/-- The characters the view denotes: `n` characters starting at `base[ptr]`
(fewer if the base array ends earlier, which for a well-formed view does
not happen). -/
def chars (s : string_view) : List Char := (s.base.drop s.ptr).take s.n

/-- Index of the first occurrence of `c` in a character list, or the list's
length if absent — the loop body of `string_view::find`. -/
def find_list (c : Char) : List Char → Nat
  | [] => 0
  | a :: as => if a = c then 0 else find_list c as + 1

/-- Source: `string_view::find(char)` — first index `i < n` with
`data[i] == c`, else `n`. -/
def find (s : string_view) (c : Char) : Nat := find_list c s.chars

/-- Source: `string_view::prefix(len)` (renamed, the original name clashes
with reserved syntax): `if (len >= n) return *this; return {data, len};`. -/
def take_front (s : string_view) (len : Nat) : string_view :=
  if s.n ≤ len then s else ⟨s.base, s.ptr, len⟩

/-- Source: `string_view::remove_prefix(len)` (renamed as above):
`if (len >= n) return {data, 0}; return {data+len, n-len};`. -/
def drop_front (s : string_view) (len : Nat) : string_view :=
  if s.n ≤ len then ⟨s.base, s.ptr, 0⟩ else ⟨s.base, s.ptr + len, s.n - len⟩

/-- Source: the `string_view(const char (&init)[N])` constructor applied to a
null-terminated string literal: the base array is the literal including its
terminator, and `n` excludes the terminator. -/
def of_literal (S : List Char) : string_view := ⟨S ++ [Char.ofNat 0], 0, S.length⟩

end string_view

/-- Source: the argument type descriptor attached to a specifier — the `T`
of `FormatSpec<T, ParamNum>`.  `litC c` is `Literal<c>`, `typeCheckIntegral`
is `TypeCheck<std::is_integral>` (conversion `d`), `idStringView` is
`Id<util::string_view>` (conversion `s`). -/
inductive SpecType where
  | litC (c : Char)
  | typeCheckIntegral
  | idStringView
deriving DecidableEq

/-- Source: `format_to_typecheck::to_type` — overloads are declared exactly
for `CharV<'d'>` and `CharV<'s'>`; any other code has no overload, which is
a compile-time failure, modelled as `none`. -/
def to_type (c : Char) : Option SpecType :=
  if c = 'd' then some SpecType.typeCheckIntegral
  else if c = 's' then some SpecType.idStringView
  else none

/-- Source: `format_parser::FormatOptions` — declared empty ("to be filled
in later"). -/
structure FormatOptions where
deriving DecidableEq

/-- Source: `format_parser::FormatSpec<T, ParamNum>`: the type descriptor
and the positional parameter number (`-1` for non-consuming specifiers). -/
structure FormatSpec where
  type : SpecType
  num : Int
deriving DecidableEq

/-- Source: `format_parser::Spec<FmtSpec>` — the result of parsing one
specifier: the specifier, its (empty) options, the remaining suffix of the
input, and the next positional index. -/
structure Spec where
  fspec : FormatSpec
  opts : FormatOptions
  suffix : string_view
  next_index : Int
deriving DecidableEq

/-- Source: `format_parser::FormatString<FormatSpecs...>` — the parsed
pattern: `sizeof...(FormatSpecs)+1` literal spans, one `FormatOptions` per
specifier, and the specifiers themselves (type-level in C++, a list here). -/
structure FormatString where
  strings : List string_view
  options : List FormatOptions
  specs : List FormatSpec
deriving DecidableEq

/-- Source: `ParsingMode<'%'>::find_first` (the `PrintfFmt` mode):
`std::min({s.find(Cs)...})` over the single delimiter `'%'`. -/
def find_first (s : string_view) : Nat := s.find '%'

/-- Source: `parse_spec_dispatch<currentParam>(fs, PrintfFmt{})`: look up the
conversion code `s[1]`; an unregistered code has no `to_type` overload
(compile failure, `none`); otherwise build a consuming specifier bound to
`currentParam`, with suffix `s.remove_prefix(2)` and incremented counter. -/
def parse_spec_dispatch (currentParam : Int) (s : string_view) : Option Spec :=
  (to_type (s.get 1)).map fun t =>
    ⟨⟨t, currentParam⟩, ⟨⟩, s.drop_front 2, currentParam + 1⟩

/-- Source: `parse_spec<currentParam>(fs, m)`: if the first two characters
are equal (doubled delimiter), emit the non-consuming `Literal` specifier
with `num = -1` and an unchanged counter; otherwise dispatch on the
conversion code. -/
def parse_spec (currentParam : Int) (s : string_view) : Option Spec :=
  if s.get 0 = s.get 1 then
    some ⟨⟨SpecType.litC (s.get 0), -1⟩, ⟨⟩, s.drop_front 2, currentParam⟩
  else parse_spec_dispatch currentParam s

/-- Source: `parse_format_impl<currentParam, Mode>(format)` for the printf
mode: find the next delimiter; if absent the whole remainder is the final
literal span; otherwise split off the prefix, parse one specifier, recurse
on its suffix and prepend the prefix, default options and the specifier. -/
def parse_format_impl (currentParam : Int) (f : string_view) : Option FormatString :=
  let format_index := find_first f
  if f.size = format_index then
    some ⟨[f], [], []⟩
  else
    match h : parse_spec currentParam (f.drop_front format_index) with
    | none => none
    | some spec =>
      match parse_format_impl spec.next_index spec.suffix with
      | none => none
      | some result =>
        some ⟨f.take_front format_index :: result.strings,
              (⟨⟩ : FormatOptions) :: result.options,
              spec.fspec :: result.specs⟩
termination_by f.n
decreasing_by
  have hfl : ∀ l : List Char, string_view.find_list '%' l ≤ l.length := by
    intro l
    induction l with
    | nil => simp [string_view.find_list]
    | cons a as ih =>
      simp only [string_view.find_list, List.length_cons]
      split <;> omega
  have hle : find_first f ≤ f.n :=
    le_trans (hfl _) (by simp [string_view.chars])
  have hfi : format_index = find_first f := rfl
  have hdn : ∀ (s : string_view) (len : Nat), (s.drop_front len).n = s.n - len := by
    intro s len
    unfold string_view.drop_front
    split
    · simp
      omega
    · simp
  have hs : spec.suffix = (f.drop_front format_index).drop_front 2 := by
    unfold parse_spec parse_spec_dispatch at h
    split at h
    · cases h; rfl
    · cases hh : to_type ((f.drop_front format_index).get 1) <;> rw [hh] at h
      · cases h
      · cases h; rfl
  rw [hs, hdn, hdn]
  simp only [string_view.size] at *
  omega

/-- Source: `format_parser::parse_format` — parse with the printf mode and
initial positional counter `0`. -/
def parse_format (f : string_view) : Option FormatString :=
  parse_format_impl 0 f

/-- Parsing a pattern given as a null-terminated string literal, the way
every pattern reaches the parser in the source. -/
def parse_literal (S : List Char) : Option FormatString :=
  parse_format (string_view.of_literal S)

/-- The fragment of the C++ type system the engine's interface touches:
the integral types, a non-integral scalar, the engine's own
`util::string_view`, character arrays and the pointer they decay to. -/
inductive CppType where
  | boolT
  | charT
  | intT
  | longT
  | doubleT
  | string_viewT
  | charArrayT (size : Nat)
  | constCharPtrT
deriving DecidableEq

/-- Source: `std::is_integral_v` on the modelled fragment. -/
def is_integral : CppType → Bool
  | CppType.boolT => true
  | CppType.charT => true
  | CppType.intT => true
  | CppType.longT => true
  | _ => false

/-- Source: `std::decay_t` on the modelled fragment — array-to-pointer
decay; every other modelled type decays to itself. -/
def decay : CppType → CppType
  | CppType.charArrayT _ => CppType.constCharPtrT
  | t => t

/-- Source: the `check<U>()` member of a type descriptor.
`TypeCheck<std::is_integral>::check<U>` is `std::is_integral_v<U>`;
`Id<util::string_view>::check<U>` is `std::is_same_v<util::string_view, U>`;
`Literal<Cs...>` has no `check` member, so instantiating one is ill-formed
(the validator never does: literal specifiers carry `num = -1`). -/
def SpecType.check : SpecType → CppType → Bool
  | SpecType.typeCheckIntegral, U => is_integral U
  | SpecType.idStringView, U => decide (U = CppType.string_viewT)
  | SpecType.litC _, _ => false

/-- The three validation failures of the source, one per `static_assert`:
`"Too many arguments for format"`, `"Too few arguments for format"` and
`"Mismatched format types"` (the latter fires inside the instantiation
for the specifier with the given positional number). -/
inductive ValidationError where
  | tooManyArguments
  | tooFewArguments
  | typeMismatch (num : Int)
deriving DecidableEq

/-- Source: `format_string::detail::check_format_conversion`: a specifier
with `num != -1` checks the decayed type of tuple element `num` against its
type descriptor; non-consuming specifiers pass trivially.  The `getD`
default is arbitrary: `std::get` out of range is ill-formed and the caller
only checks conversions after the count check has passed. -/
def check_format_conversion (fs : FormatSpec) (ts : List CppType) : Bool :=
  if fs.num ≠ -1 then
    fs.type.check (decay (ts.getD fs.num.toNat CppType.intT))
  else true

/-- Source: `format_string::detail::check_format`: count the specifiers with
`num != -1`; assert the tuple is not larger and not smaller than that count
(two distinct diagnostics); when the counts agree, check every conversion.
The first failing conversion's specifier is reported. -/
def check_format (f : FormatString) (ts : List CppType) : Except ValidationError Unit :=
  let num_args := f.specs.countP (fun s => decide (s.num ≠ -1))
  if num_args < ts.length then Except.error ValidationError.tooManyArguments
  else if ts.length < num_args then Except.error ValidationError.tooFewArguments
  else
    match f.specs.find? (fun s => ! check_format_conversion s ts) with
    | some s => Except.error (ValidationError.typeMismatch s.num)
    | none => Except.ok ()

/-- Source: `Format<T, is_integral>::get_string_rec<N>`: the digit
`'0' + std::abs(N % 10)` preceded, unless `N / 10 == 0`, by the digits of
`N / 10`.  C++ `/` and `%` on signed integers truncate toward zero:
`Int.tdiv` and `Int.tmod`. -/
def get_string_rec (N : Int) : List Char :=
  let current := [Char.ofNat ('0'.toNat + (N.tmod 10).natAbs)]
  if N.tdiv 10 = 0 then current
  else get_string_rec (N.tdiv 10) ++ current
termination_by N.natAbs
decreasing_by
  rename_i h10
  have h1 : (N.tdiv 10).natAbs = N.natAbs / 10 := Int.natAbs_tdiv N 10
  have h2 : N.natAbs ≠ 0 := by
    intro h0
    exact h10 (by rw [Int.natAbs_eq_zero.mp h0]; rfl)
  rw [h1]
  exact Nat.div_lt_self (Nat.pos_of_ne_zero h2) (by norm_num)

/-- Source: `Format<T, is_integral>::get_string`: zero renders as `"0"`;
otherwise the digits of `N` with `"-"` prepended when `N < 0`.  Note the
recursion runs on `N` itself, not on `|N|`. -/
def int_get_string (N : Int) : List Char :=
  if N = 0 then ['0']
  else if N < 0 then '-' :: get_string_rec N
  else get_string_rec N

/-- Source: `util::view_to_static<N>`: the characters `s[0], …, s[size-1]`
copied into a fixed string (also used by `Format<util::string_view>`). -/
def view_to_static (s : string_view) : List Char :=
  (List.range s.n).map (fun i => s.get i)

/-- An argument value together with its C++ static type: an integer of some
integral type, a `util::string_view`, or a value of some other type (whose
content the engine could not render anyway). -/
inductive Arg where
  | intA (t : CppType) (v : Int)
  | strA (s : string_view)
  | otherA (t : CppType)
deriving DecidableEq

/-- The C++ static type of an argument as a tuple element. -/
def Arg.ctype : Arg → CppType
  | Arg.intA t _ => t
  | Arg.strA _ => CppType.string_viewT
  | Arg.otherA t => t

/-- Source: the dispatch `Format<std::decay_t<decltype(val)>>::get_string`
on an argument value: integral types use the integer renderer,
`util::string_view` is copied verbatim, and any other type has no `Format`
specialization (ill-formed, `none`). -/
def Format_get_string : Arg → Option (List Char)
  | Arg.intA t v => if is_integral (decay t) then some (int_get_string v) else none
  | Arg.strA s => some (view_to_static s)
  | Arg.otherA _ => none

/-- Source: the `getString` lambda of `format_string::detail::format_impl`:
a non-consuming specifier (`num == -1`) renders its `Literal` type with no
argument (only `Literal` has a nullary `get_string`); a consuming one
renders the tuple element at its positional number. -/
def spec_get_string (args : List Arg) (fs : FormatSpec) : Option (List Char) :=
  if fs.num = -1 then
    match fs.type with
    | SpecType.litC c => some [c]
    | _ => none
  else Format_get_string (args.getD fs.num.toNat (Arg.otherA CppType.doubleT))

/-- Source: the fold `((getString(fs) + view_to_static(prefixes)) + … +
static_string<0>{})` zipping each specifier's rendering with the literal
span that follows it.  The specifier and span packs have equal static
length in C++; a shorter span list is unreachable (`none`). -/
def render_pieces (args : List Arg) : List FormatSpec → List string_view → Option (List Char)
  | [], _ => some []
  | fs :: fss, v :: vs => do
      let x ← spec_get_string args fs
      let rest ← render_pieces args fss vs
      pure ((x ++ view_to_static v) ++ rest)
  | _ :: _, [] => none

/-- Source: `format_string::detail::format_impl`: when `check_format`
passes, concatenate the first literal span with the zipped specifier
renderings and remaining spans; when it fails the source still returns the
one-character buffer `"\0"` (after the failing `static_assert`) to keep
diagnostics short. -/
def format_impl (f : FormatString) (args : List Arg) : Option (List Char) :=
  match check_format f (args.map Arg.ctype) with
  | Except.ok _ =>
    match f.strings with
    | [] => none
    | s0 :: rest =>
        (render_pieces args f.specs rest).map (fun tail => view_to_static s0 ++ tail)
  | Except.error _ => some [Char.ofNat 0]

/-- Source: `constexpr_format::format` applied to a pattern literal: parse
the pattern, then render.  A parse failure is a compile-time error
(`none`). -/
def cf_format (S : List Char) (args : List Arg) : Option (List Char) :=
  match parse_literal S with
  | none => none
  | some f => format_impl f args

/-- Fuel-indexed twin of `parse_format_impl`, used only to evaluate the
well-founded recursion inside the kernel; `parse_fuel_correct` shows it
agrees with the parser whenever the fuel exceeds the slice length. -/
def parse_fuel : Nat → Int → string_view → Option FormatString
  | 0, _, _ => none
  | fuel+1, cp, f =>
    if f.size = find_first f then some ⟨[f], [], []⟩
    else
      match parse_spec cp (f.drop_front (find_first f)) with
      | none => none
      | some sp =>
        match parse_fuel fuel sp.next_index sp.suffix with
        | none => none
        | some r =>
          some ⟨f.take_front (find_first f) :: r.strings,
                (⟨⟩ : FormatOptions) :: r.options, sp.fspec :: r.specs⟩

/-- The positional numbers of the argument-consuming specifiers, in
pattern order. -/
def consuming_nums (l : List FormatSpec) : List Int :=
  (l.filter (fun s => decide (s.num ≠ -1))).map FormatSpec.num

/-- The count of argument-consuming specifiers (`num != -1`), as computed
by `check_format`. -/
def num_consuming (l : List FormatSpec) : Nat :=
  l.countP (fun s => decide (s.num ≠ -1))

/-- The consecutive integers `start, start+1, …` of length `k`. -/
def count_from (start : Int) (k : Nat) : List Int :=
  (List.range k).map (fun i => start + Int.ofNat i)

/-- The arguments `get_string_rec` is instantiated with along its
recursion, outermost first. -/
def get_string_rec_calls (N : Int) : List Int :=
  if N.tdiv 10 = 0 then [N] else N :: get_string_rec_calls (N.tdiv 10)
termination_by N.natAbs
decreasing_by
  rename_i h10
  have h1 : (N.tdiv 10).natAbs = N.natAbs / 10 := Int.natAbs_tdiv N 10
  have h2 : N.natAbs ≠ 0 := by
    intro h0
    exact h10 (by rw [Int.natAbs_eq_zero.mp h0]; rfl)
  rw [h1]
  exact Nat.div_lt_self (Nat.pos_of_ne_zero h2) (by norm_num)

/-- The most-significant-first decimal digit characters of a natural
number (empty for zero): the reference rendering the implementation is
compared against. -/
def dec_chars (m : Nat) : List Char :=
  (Nat.digits 10 m).reverse.map (fun d => Char.ofNat ('0'.toNat + d))

/-- Follows the spec's words, for comparison with the implementation:
zero renders as the single character `"0"`; otherwise the decimal digits
of `|N|` most-significant-first with no leading zeros, prefixed by `"-"`
exactly when `N < 0`. -/
def decimal_spec (N : Int) : List Char :=
  if N = 0 then ['0']
  else (if N < 0 then ['-'] else []) ++ dec_chars N.natAbs

/-- The two pattern characters a specifier was parsed from: a doubled
delimiter for the literal escape, the delimiter plus the conversion code
otherwise. -/
def spec_source : FormatSpec → List Char
  | ⟨SpecType.litC c, _⟩ => [c, c]
  | ⟨SpecType.typeCheckIntegral, _⟩ => ['%', 'd']
  | ⟨SpecType.idStringView, _⟩ => ['%', 's']

/-- Interleaving of `K+1` pieces with `K` pieces, first list first:
`s0 ++ x0 ++ s1 ++ x1 ++ … ++ sK`. -/
def interleave (ss : List (List Char)) (xs : List (List Char)) : List Char :=
  match xs, ss with
  | x :: xs', s :: ss' => s ++ (x ++ interleave ss' xs')
  | [], [s] => s
  | _, _ => []

/-- The views the parser recurses on: views into the null-terminated
pattern `S` that either reach the end of `S` or are empty. -/
def Aligned (S : List Char) (v : string_view) : Prop :=
  v.base = S ++ [Char.ofNat 0] ∧ v.ptr + v.n ≤ S.length ∧
    (v.ptr + v.n = S.length ∨ v.n = 0)

/-- The flat zip `x0 ++ s0 ++ x1 ++ s1 ++ …` of rendered pieces with the
spans that follow them. -/
def zip_flat : List (List Char) → List (List Char) → List Char
  | x :: xs, s :: ss => (x ++ s) ++ zip_flat xs ss
  | _, _ => []

/-- The text of a run of well-formed pattern segments, each a literal span
followed by a two-character specifier: `lit₀ %x₀ lit₁ %x₁ …`. -/
def seg_flat : List (List Char × Char) → List Char
  | [] => []
  | (lit, code) :: L => lit ++ '%' :: code :: seg_flat L

instance : DecidableEq (Except ValidationError Unit) := fun x y =>
  match x, y with
  | Except.ok (), Except.ok () => isTrue rfl
  | Except.ok (), Except.error _ => isFalse Except.noConfusion
  | Except.error _, Except.ok () => isFalse Except.noConfusion
  | Except.error e₁, Except.error e₂ =>
    match decEq e₁ e₂ with
    | isTrue h => isTrue (h ▸ rfl)
    | isFalse h => isFalse fun hh => h (Except.error.inj hh)

theorem find_list_le (c : Char) (l : List Char) : string_view.find_list c l ≤ l.length := by
  induction l with
  | nil => simp [string_view.find_list]
  | cons a as ih =>
    simp only [string_view.find_list, List.length_cons]
    split <;> omega

theorem find_le (s : string_view) (c : Char) : s.find c ≤ s.n := by
  have h1 := find_list_le c s.chars
  have h2 : s.chars.length ≤ s.n := by
    simp [string_view.chars]
  exact le_trans h1 h2

theorem drop_front_n (s : string_view) (len : Nat) :
    (s.drop_front len).n = s.n - len := by
  unfold string_view.drop_front
  split
  · simp; omega
  · simp

/-- Whatever branch `parse_spec` takes, the suffix it returns is
`s.remove_prefix(2)`. -/
theorem parse_spec_suffix (cp : Int) (s : string_view) (sp : Spec)
    (h : parse_spec cp s = some sp) : sp.suffix = s.drop_front 2 := by
  unfold parse_spec parse_spec_dispatch at h
  split at h
  · cases h; rfl
  · cases hh : to_type (s.get 1) <;> rw [hh] at h
    · cases h
    · cases h; rfl


/-! ## Parser unfolding and evaluation infrastructure -/

theorem parse_base (cp : Int) (f : string_view) (h : f.size = find_first f) :
    parse_format_impl cp f = some ⟨[f], [], []⟩ := by
  rw [parse_format_impl.eq_def]
  simp [h]

theorem parse_cons_eq (cp : Int) (f : string_view) (h : ¬ f.size = find_first f)
    (sp : Spec) (hsp : parse_spec cp (f.drop_front (find_first f)) = some sp) :
    parse_format_impl cp f =
      (parse_format_impl sp.next_index sp.suffix).map
        (fun r => ⟨f.take_front (find_first f) :: r.strings,
                   (⟨⟩ : FormatOptions) :: r.options, sp.fspec :: r.specs⟩) := by
  rw [parse_format_impl.eq_def]
  simp only [h, if_false]
  split
  · rename_i heq
    rw [hsp] at heq
    cases heq
  · rename_i spec heq
    have hss : sp = spec := Option.some.inj (hsp.symm.trans heq)
    subst hss
    cases parse_format_impl sp.next_index sp.suffix <;> rfl

theorem parse_none_eq (cp : Int) (f : string_view) (h : ¬ f.size = find_first f)
    (hsp : parse_spec cp (f.drop_front (find_first f)) = none) :
    parse_format_impl cp f = none := by
  rw [parse_format_impl.eq_def]
  simp only [h, if_false]
  split
  · rfl
  · rename_i spec heq
    rw [hsp] at heq
    cases heq

theorem parse_cons_inv (cp : Int) (f : string_view) (r : FormatString)
    (h : ¬ f.size = find_first f) (hr : parse_format_impl cp f = some r) :
    ∃ sp r', parse_spec cp (f.drop_front (find_first f)) = some sp ∧
      parse_format_impl sp.next_index sp.suffix = some r' ∧
      r = ⟨f.take_front (find_first f) :: r'.strings,
           (⟨⟩ : FormatOptions) :: r'.options, sp.fspec :: r'.specs⟩ := by
  cases hsp : parse_spec cp (f.drop_front (find_first f)) with
  | none =>
    rw [parse_none_eq cp f h hsp] at hr
    cases hr
  | some sp =>
    rw [parse_cons_eq cp f h sp hsp] at hr
    cases hrec : parse_format_impl sp.next_index sp.suffix with
    | none => rw [hrec] at hr; cases hr
    | some r' =>
      rw [hrec] at hr
      exact ⟨sp, r', rfl, hrec, (Option.some.inj hr).symm⟩

/-- The suffix handed to the recursive call is strictly shorter than the
specifier's input whenever that input is nonempty. -/
theorem parse_spec_suffix_lt (cp : Int) (s : string_view) (sp : Spec)
    (h : parse_spec cp s = some sp) (hn : 1 ≤ s.n) : sp.suffix.n < s.n := by
  rw [parse_spec_suffix cp s sp h, drop_front_n]
  omega

theorem parse_fuel_correct : ∀ (fuel : Nat) (cp : Int) (f : string_view), f.n < fuel →
    parse_format_impl cp f = parse_fuel fuel cp f := by
  intro fuel
  induction fuel with
  | zero => intro cp f h; omega
  | succ fuel ih =>
    intro cp f h
    by_cases hb : f.size = find_first f
    · rw [parse_base cp f hb]
      simp [parse_fuel, hb]
    · cases hsp : parse_spec cp (f.drop_front (find_first f)) with
      | none =>
        rw [parse_none_eq cp f hb hsp]
        simp [parse_fuel, hb, hsp]
      | some sp =>
        have hk : find_first f ≤ f.n := find_le f '%'
        have h1 : 1 ≤ (f.drop_front (find_first f)).n := by
          rw [drop_front_n]
          simp only [string_view.size] at hb
          omega
        have hlt : sp.suffix.n < f.n :=
          lt_of_lt_of_le (parse_spec_suffix_lt cp _ sp hsp h1) (by rw [drop_front_n]; omega)
        rw [parse_cons_eq cp f hb sp hsp, ih sp.next_index sp.suffix (by omega)]
        simp only [parse_fuel, hb, if_false, hsp]
        cases parse_fuel fuel sp.next_index sp.suffix <;> rfl

theorem parse_literal_eval (S : List Char) :
    parse_literal S = parse_fuel (S.length + 1) 0 (string_view.of_literal S) := by
  unfold parse_literal parse_format
  exact parse_fuel_correct (S.length + 1) 0 _ (by simp [string_view.of_literal])

/-- Case analysis on a successful `parse_spec`. -/
theorem parse_spec_cases (cp : Int) (s : string_view) (sp : Spec)
    (h : parse_spec cp s = some sp) :
    (s.get 0 = s.get 1 ∧
      sp = ⟨⟨SpecType.litC (s.get 0), -1⟩, ⟨⟩, s.drop_front 2, cp⟩) ∨
    (¬ s.get 0 = s.get 1 ∧ ∃ t, to_type (s.get 1) = some t ∧
      sp = ⟨⟨t, cp⟩, ⟨⟩, s.drop_front 2, cp + 1⟩) := by
  unfold parse_spec parse_spec_dispatch at h
  split at h
  · exact Or.inl ⟨by assumption, (Option.some.inj h).symm⟩
  · cases hh : to_type (s.get 1) <;> rw [hh] at h
    · cases h
    · rename_i t
      exact Or.inr ⟨by assumption, t, rfl, (Option.some.inj h).symm⟩

theorem to_type_cases (c : Char) (t : SpecType) (h : to_type c = some t) :
    (c = 'd' ∧ t = SpecType.typeCheckIntegral) ∨ (c = 's' ∧ t = SpecType.idStringView) := by
  unfold to_type at h
  split at h
  · exact Or.inl ⟨by assumption, (Option.some.inj h).symm⟩
  · split at h
    · exact Or.inr ⟨by assumption, (Option.some.inj h).symm⟩
    · cases h

theorem to_type_none (c : Char) (hd : ¬ c = 'd') (hs : ¬ c = 's') : to_type c = none := by
  unfold to_type
  rw [if_neg hd, if_neg hs]

/-! ## Character-list facts about views over null-terminated literals -/

theorem find_list_of_not_mem (c : Char) (l : List Char) (h : c ∉ l) :
    string_view.find_list c l = l.length := by
  induction l with
  | nil => rfl
  | cons a as ih =>
    simp only [List.mem_cons, not_or] at h
    simp only [string_view.find_list, List.length_cons]
    rw [if_neg (fun hh => h.1 hh.symm), ih h.2]

theorem find_list_append (c : Char) (l₁ l₂ : List Char) (h : c ∉ l₁) :
    string_view.find_list c (l₁ ++ c :: l₂) = l₁.length := by
  induction l₁ with
  | nil => simp [string_view.find_list]
  | cons a as ih =>
    simp only [List.mem_cons, not_or] at h
    simp only [List.cons_append, string_view.find_list, List.length_cons, List.append_eq]
    rw [if_neg (fun hh => h.1 hh.symm), ih h.2]

/-- The character a successful `find_list` points at. -/
theorem find_list_getD (c : Char) (l : List Char) (d : Char)
    (h : string_view.find_list c l < l.length) :
    l.getD (string_view.find_list c l) d = c := by
  induction l with
  | nil => simp [string_view.find_list] at h
  | cons a as ih =>
    simp only [string_view.find_list] at h ⊢
    by_cases ha : a = c
    · simp [ha]
    · rw [if_neg ha] at h ⊢
      simp only [List.length_cons] at h
      simpa using ih (by omega)

theorem chars_of_literal (S : List Char) : (string_view.of_literal S).chars = S := by
  simp [string_view.of_literal, string_view.chars, List.take_append_of_le_length]

theorem chars_mk (B : List Char) (p m : Nat) :
    (string_view.mk B p m).chars = (B.drop p).take m := rfl

theorem view_to_static_eq_chars (s : string_view) (h : s.ptr + s.n ≤ s.base.length) :
    view_to_static s = s.chars := by
  apply List.ext_getElem
  · simp only [view_to_static, List.length_map, List.length_range, string_view.chars,
      List.length_take, List.length_drop]
    omega
  · intro i h1 h2
    simp only [view_to_static, List.length_map, List.length_range] at h1
    simp only [view_to_static, List.getElem_map, List.getElem_range, string_view.chars,
      List.getElem_take, List.getElem_drop, string_view.get]
    exact List.getD_eq_getElem s.base (Char.ofNat 0) (by omega)

/-! ## Integer renderer: digits facts -/

/-- C++ truncating remainder has the magnitude of the natural remainder:
`|a % b| = |a| mod b` for a natural divisor. -/
theorem natAbs_tmod_nat (a : Int) (b : Nat) : (a.tmod (b : Int)).natAbs = a.natAbs % b := by
  cases a with
  | ofNat m => rfl
  | negSucc m =>
    show ((-(Int.ofNat ((m + 1) % b))).natAbs) = (m + 1) % b
    rw [Int.natAbs_neg]
    rfl

theorem natAbs_tdiv_nat (a : Int) (b : Nat) : (a.tdiv (b : Int)).natAbs = a.natAbs / b := by
  rw [Int.natAbs_tdiv]
  rfl

theorem tdiv_ten_eq_zero_iff (N : Int) : N.tdiv 10 = 0 ↔ N.natAbs < 10 := by
  rw [← Int.natAbs_eq_zero]
  have h : ((10 : Nat) : Int) = (10 : Int) := rfl
  rw [← h, natAbs_tdiv_nat]
  omega

theorem dec_chars_lt_ten (m : Nat) (h0 : 0 < m) (h : m < 10) :
    dec_chars m = [Char.ofNat ('0'.toNat + m)] := by
  unfold dec_chars
  rw [Nat.digits_def' (by norm_num) h0, Nat.div_eq_of_lt h, Nat.digits_zero,
    Nat.mod_eq_of_lt h]
  rfl

theorem dec_chars_ge_ten (m : Nat) (h : 10 ≤ m) :
    dec_chars m = dec_chars (m / 10) ++ [Char.ofNat ('0'.toNat + m % 10)] := by
  unfold dec_chars
  rw [Nat.digits_def' (by norm_num) (by omega)]
  simp

/-- The recursive digit extractor agrees with the decimal digits of the
magnitude, for any nonzero argument of either sign. -/
theorem get_string_rec_digits : ∀ (k : Nat) (N : Int), N.natAbs ≤ k → N ≠ 0 →
    get_string_rec N = dec_chars N.natAbs := by
  intro k
  induction k with
  | zero =>
    intro N hk hN
    exact absurd (Int.natAbs_eq_zero.mp (Nat.le_zero.mp hk)) hN
  | succ k ih =>
    intro N hk hN
    rw [get_string_rec.eq_def]
    by_cases h10 : N.tdiv 10 = 0
    · have hlt : N.natAbs < 10 := (tdiv_ten_eq_zero_iff N).mp h10
      have h0 : 0 < N.natAbs := Int.natAbs_pos.mpr hN
      simp only [h10, if_true]
      rw [dec_chars_lt_ten N.natAbs h0 hlt]
      have : ((10 : Nat) : Int) = (10 : Int) := rfl
      rw [← this, natAbs_tmod_nat, Nat.mod_eq_of_lt hlt]
    · have hge : 10 ≤ N.natAbs := by
        have := (tdiv_ten_eq_zero_iff N).not.mp h10
        omega
      have hne : N.tdiv 10 ≠ 0 := h10
      have habs : (N.tdiv 10).natAbs = N.natAbs / 10 := natAbs_tdiv_nat N 10
      have hk' : (N.tdiv 10).natAbs ≤ k := by
        rw [habs]
        have : N.natAbs / 10 < N.natAbs := Nat.div_lt_self (by omega) (by norm_num)
        omega
      simp only [h10, if_false]
      rw [ih (N.tdiv 10) hk' hne, habs, dec_chars_ge_ten N.natAbs hge]
      have : ((10 : Nat) : Int) = (10 : Int) := rfl
      rw [← this, natAbs_tmod_nat]

/-- The integer renderer meets the spec's description for every integer. -/
theorem int_get_string_decimal (N : Int) : int_get_string N = decimal_spec N := by
  unfold int_get_string decimal_spec
  by_cases h0 : N = 0
  · simp [h0]
  · rw [if_neg h0, if_neg h0]
    have hrec := get_string_rec_digits N.natAbs N (le_refl _) h0
    by_cases hneg : N < 0
    · rw [if_pos hneg, if_pos hneg, hrec]
      rfl
    · rw [if_neg hneg, if_neg hneg, hrec]
      rfl

/-- The slice handed to the recursive parse call is strictly shorter than
the current one: the step of the parser's termination argument. -/
theorem parse_step_suffix_lt (cp : Int) (f : string_view) (sp : Spec)
    (hb : ¬ f.size = find_first f)
    (hsp : parse_spec cp (f.drop_front (find_first f)) = some sp) :
    sp.suffix.n < f.n := by
  have hk : find_first f ≤ f.n := find_le f '%'
  have h1 : 1 ≤ (f.drop_front (find_first f)).n := by
    rw [drop_front_n]
    simp only [string_view.size] at hb
    omega
  exact lt_of_lt_of_le (parse_spec_suffix_lt cp _ sp hsp h1) (by rw [drop_front_n]; omega)

/-- Shape invariant of every parser result: one more literal span than
specifiers, and one options slot per specifier. -/
theorem parse_shape : ∀ (k : Nat) (cp : Int) (f : string_view) (r : FormatString),
    f.n ≤ k → parse_format_impl cp f = some r →
    r.strings.length = r.specs.length + 1 ∧ r.options.length = r.specs.length := by
  intro k
  induction k with
  | zero =>
    intro cp f r hk hr
    have hsz : f.size = find_first f := by
      have h1 : find_first f ≤ f.n := find_le f '%'
      simp only [string_view.size]
      omega
    rw [parse_base cp f hsz] at hr
    cases hr
    simp
  | succ k ih =>
    intro cp f r hk hr
    by_cases hb : f.size = find_first f
    · rw [parse_base cp f hb] at hr
      cases hr
      simp
    · obtain ⟨sp, r', hsp, hrec, hre⟩ := parse_cons_inv cp f r hb hr
      have hlt : sp.suffix.n < f.n := parse_step_suffix_lt cp f sp hb hsp
      obtain ⟨ha, hb2⟩ := ih sp.next_index sp.suffix r' (by omega) hrec
      subst hre
      simp [ha, hb2]

/-- Every value in the recursion trace is bounded by the original argument's
magnitude: the division chain never grows. -/
theorem calls_natAbs_le : ∀ (k : Nat) (N M : Int), N.natAbs ≤ k →
    M ∈ get_string_rec_calls N → M.natAbs ≤ N.natAbs := by
  intro k
  induction k with
  | zero =>
    intro N M hk hM
    rw [get_string_rec_calls.eq_def] at hM
    have h0 : N.natAbs = 0 := by omega
    have hN : N = 0 := Int.natAbs_eq_zero.mp h0
    rw [hN] at hM
    simp [Int.zero_tdiv] at hM
    simp [hM, hN]
  | succ k ih =>
    intro N M hk hM
    rw [get_string_rec_calls.eq_def] at hM
    by_cases h10 : N.tdiv 10 = 0
    · rw [if_pos h10] at hM
      simp at hM
      simp [hM]
    · rw [if_neg h10] at hM
      cases hM with
      | head => exact le_refl _
      | tail _ hM' =>
        have habs : (N.tdiv 10).natAbs = N.natAbs / 10 := natAbs_tdiv_nat N 10
        have hdk : (N.tdiv 10).natAbs ≤ k := by
          have hpos : 0 < N.natAbs := by
            rcases Nat.eq_zero_or_pos N.natAbs with h | h
            · exact absurd (by rw [Int.natAbs_eq_zero.mp h]; rfl) h10
            · exact h
          have : N.natAbs / 10 < N.natAbs := Nat.div_lt_self hpos (by norm_num)
          omega
        have := ih (N.tdiv 10) M hdk hM'
        rw [habs] at this
        omega

/-- The digit extractor emits, most significant first, exactly the digit
character of each value in its recursion trace (the trace reversed). -/
theorem get_string_rec_eq_calls : ∀ (k : Nat) (N : Int), N.natAbs ≤ k →
    get_string_rec N = (get_string_rec_calls N).reverse.map
      (fun M => Char.ofNat ('0'.toNat + (M.tmod 10).natAbs)) := by
  intro k
  induction k with
  | zero =>
    intro N hk
    have hN : N = 0 := Int.natAbs_eq_zero.mp (by omega)
    subst hN
    rw [get_string_rec.eq_def, get_string_rec_calls.eq_def]
    simp [Int.zero_tdiv]
  | succ k ih =>
    intro N hk
    rw [get_string_rec.eq_def, get_string_rec_calls.eq_def]
    by_cases h10 : N.tdiv 10 = 0
    · simp [h10]
    · have habs : (N.tdiv 10).natAbs = N.natAbs / 10 := natAbs_tdiv_nat N 10
      have hdk : (N.tdiv 10).natAbs ≤ k := by
        have hpos : 0 < N.natAbs := by
          rcases Nat.eq_zero_or_pos N.natAbs with h | h
          · exact absurd (by rw [Int.natAbs_eq_zero.mp h]; rfl) h10
          · exact h
        have : N.natAbs / 10 < N.natAbs := Nat.div_lt_self hpos (by norm_num)
        omega
      simp only [h10, if_false, List.reverse_cons, List.map_append, List.map_cons,
        List.map_nil]
      rw [ih (N.tdiv 10) hdk]

/-! ## Positional index assignment -/

theorem consuming_nums_cons_neg (t : SpecType) (m : Int) (l : List FormatSpec)
    (h : ¬ m = -1) : consuming_nums (⟨t, m⟩ :: l) = m :: consuming_nums l := by
  simp [consuming_nums, List.filter_cons, h]

theorem consuming_nums_cons_lit (t : SpecType) (l : List FormatSpec) :
    consuming_nums (⟨t, -1⟩ :: l) = consuming_nums l := by
  simp [consuming_nums, List.filter_cons]

theorem num_consuming_cons_neg (t : SpecType) (m : Int) (l : List FormatSpec)
    (h : ¬ m = -1) : num_consuming (⟨t, m⟩ :: l) = num_consuming l + 1 := by
  simp [num_consuming, List.countP_cons, h]

theorem num_consuming_cons_lit (t : SpecType) (l : List FormatSpec) :
    num_consuming (⟨t, -1⟩ :: l) = num_consuming l := by
  simp [num_consuming, List.countP_cons]

theorem count_from_succ (start : Int) (k : Nat) :
    count_from start (k + 1) = start :: count_from (start + 1) k := by
  unfold count_from
  rw [List.range_succ_eq_map, List.map_cons, List.map_map]
  norm_num
  intro a _
  ring

/-- Positional indices are handed out consecutively from the running
counter, to exactly the consuming specifiers; non-consuming specifiers are
the literal escapes and carry `-1`. -/
theorem parse_nums : ∀ (k : Nat) (cp : Int) (f : string_view) (r : FormatString),
    f.n ≤ k → 0 ≤ cp → parse_format_impl cp f = some r →
    consuming_nums r.specs = count_from cp (num_consuming r.specs) ∧
    ∀ s ∈ r.specs, s.num = -1 → ∃ c, s.type = SpecType.litC c := by
  intro k
  induction k with
  | zero =>
    intro cp f r hk hcp hr
    have hsz : f.size = find_first f := by
      have h1 : find_first f ≤ f.n := find_le f '%'
      simp only [string_view.size]
      omega
    rw [parse_base cp f hsz] at hr
    cases hr
    simp [consuming_nums, count_from, num_consuming]
  | succ k ih =>
    intro cp f r hk hcp hr
    by_cases hb : f.size = find_first f
    · rw [parse_base cp f hb] at hr
      cases hr
      simp [consuming_nums, count_from, num_consuming]
    · obtain ⟨sp, r', hsp, hrec, hre⟩ := parse_cons_inv cp f r hb hr
      have hlt : sp.suffix.n < f.n := parse_step_suffix_lt cp f sp hb hsp
      rcases parse_spec_cases cp _ sp hsp with ⟨_, hspv⟩ | ⟨_, t, ht, hspv⟩
      · -- doubled delimiter: non-consuming, counter unchanged
        obtain ⟨ihn, ihl⟩ := ih cp sp.suffix r' (by omega)
          hcp (by rw [hspv] at hrec ⊢; exact hrec)
        subst hre
        rw [hspv]
        constructor
        · rw [consuming_nums_cons_lit, num_consuming_cons_lit]
          exact ihn
        · intro s hs hnum
          rcases List.mem_cons.mp hs with h | h
          · exact ⟨_, by rw [h]⟩
          · exact ihl s h hnum
      · -- conversion: consuming, counter incremented
        obtain ⟨ihn, ihl⟩ := ih (cp + 1) sp.suffix r' (by omega)
          (by omega) (by rw [hspv] at hrec ⊢; exact hrec)
        subst hre
        rw [hspv]
        have hne : ¬ (cp = -1) := by omega
        constructor
        · rw [consuming_nums_cons_neg _ _ _ hne, num_consuming_cons_neg _ _ _ hne,
            count_from_succ, ihn]
        · intro s hs hnum
          rcases List.mem_cons.mp hs with h | h
          · rw [h] at hnum
            simp at hnum
            omega
          · exact ihl s h hnum


/-! ## Source-order reconstruction of the pattern -/

theorem interleave_cons (s x : List Char) (ss xs : List (List Char)) :
    interleave (s :: ss) (x :: xs) = s ++ (x ++ interleave ss xs) := rfl

theorem interleave_single (s : List Char) : interleave [s] [] = s := rfl

theorem getD_drop (S : List Char) (p i : Nat) (d : Char) :
    (S.drop p).getD i d = S.getD (p + i) d := by
  by_cases h : p + i < S.length
  · rw [List.getD_eq_getElem _ _ (by simp only [List.length_drop]; omega),
      List.getD_eq_getElem _ _ h, List.getElem_drop]
  · rw [List.getD_eq_default _ _ (by simp only [List.length_drop]; omega),
      List.getD_eq_default _ _ (by omega)]

theorem chars_of_based (S : List Char) (v : string_view)
    (hb : v.base = S ++ [Char.ofNat 0]) (hle : v.ptr + v.n ≤ S.length) :
    v.chars = (S.drop v.ptr).take v.n := by
  rw [string_view.chars, hb, List.drop_append_of_le_length (by omega),
    List.take_append_of_le_length (by simp only [List.length_drop]; omega)]

theorem aligned_chars_full (S : List Char) (v : string_view) (h : Aligned S v)
    (hfull : v.ptr + v.n = S.length) : v.chars = S.drop v.ptr := by
  rw [chars_of_based S v h.1 h.2.1]
  exact List.take_of_length_le (by simp only [List.length_drop]; omega)

theorem aligned_chars_len (S : List Char) (v : string_view) (h : Aligned S v) :
    v.chars.length = v.n := by
  rw [chars_of_based S v h.1 h.2.1]
  have hle := h.2.1
  simp only [List.length_take, List.length_drop]
  omega

theorem based_get_lt (S : List Char) (v : string_view) (i : Nat)
    (hb : v.base = S ++ [Char.ofNat 0]) (hi : v.ptr + i < S.length) :
    v.get i = S.getD (v.ptr + i) (Char.ofNat 0) := by
  rw [string_view.get, hb, List.getD_append _ _ _ _ hi]

theorem based_get_end (S : List Char) (v : string_view) (i : Nat)
    (hb : v.base = S ++ [Char.ofNat 0]) (hi : v.ptr + i = S.length) :
    v.get i = Char.ofNat 0 := by
  rw [string_view.get, hb, List.getD_append_right _ _ _ _ (by omega)]
  simp [hi]

theorem drop_split_two (S : List Char) (p k : Nat) (d : Char)
    (h : p + k + 1 < S.length) :
    S.drop p = (S.drop p).take k ++
      (S.getD (p + k) d :: S.getD (p + k + 1) d :: S.drop (p + k + 2)) := by
  conv_lhs => rw [← List.take_append_drop k (S.drop p)]
  congr 1
  rw [List.drop_drop, List.drop_eq_getElem_cons (by omega)]
  rw [List.drop_eq_getElem_cons (l := S) (by omega)]
  rw [List.getD_eq_getElem _ _ (by omega), List.getD_eq_getElem _ _ (by omega)]

theorem reconstruct_base (S : List Char) (f : string_view) (hal : Aligned S f) :
    f.chars = interleave ([f].map string_view.chars) ([].map spec_source) ∧
    ∀ v ∈ [f], v.ptr + v.n ≤ v.base.length := by
  constructor
  · rfl
  · intro v hv
    rw [List.mem_singleton] at hv
    subst hv
    rw [hal.1]
    simp only [List.length_append, List.length_singleton]
    have := hal.2.1
    omega

/-- Parsing reproduces its input: the pattern text is exactly the literal
spans interleaved with the two-character sources of the specifiers, in
source order; moreover every stored span stays inside the pattern's
backing array. -/
theorem parse_reconstruct : ∀ (k : Nat) (cp : Int) (S : List Char) (f : string_view)
    (r : FormatString), f.n ≤ k → Aligned S f → parse_format_impl cp f = some r →
    f.chars = interleave (r.strings.map string_view.chars) (r.specs.map spec_source) ∧
    ∀ v ∈ r.strings, v.ptr + v.n ≤ v.base.length := by
  intro k
  induction k with
  | zero =>
    intro cp S f r hk hal hr
    have hsz : f.size = find_first f := by
      have h1 : find_first f ≤ f.n := find_le f '%'
      simp only [string_view.size]
      omega
    rw [parse_base cp f hsz] at hr
    cases hr
    exact reconstruct_base S f hal
  | succ k ih =>
    intro cp S f r hk hal hr
    by_cases hbase : f.size = find_first f
    · rw [parse_base cp f hbase] at hr
      cases hr
      exact reconstruct_base S f hal
    · obtain ⟨sp, r', hsp, hrec, hre⟩ := parse_cons_inv cp f r hbase hr
      have hfind : find_first f ≤ f.n := find_le f '%'
      have hlt0 : find_first f < f.n := by
        simp only [string_view.size] at hbase
        omega
      have hfull : f.ptr + f.n = S.length := by
        rcases hal.2.2 with h | h
        · exact h
        · omega
      have hchars : f.chars = S.drop f.ptr := aligned_chars_full S f hal hfull
      have hcharlen : f.chars.length = f.n := aligned_chars_len S f hal
      have hhit : S.getD (f.ptr + find_first f) (Char.ofNat 0) = '%' := by
        have h1 : string_view.find_list '%' f.chars < f.chars.length := by
          rw [hcharlen]
          exact hlt0
        have h2 := find_list_getD '%' f.chars (Char.ofNat 0) h1
        rw [show string_view.find_list '%' f.chars = find_first f from rfl] at h2
        rw [hchars, getD_drop] at h2
        exact h2
      have hsn : ¬ (f.n ≤ find_first f) := by omega
      set sd := f.drop_front (find_first f) with hsd_def
      have hsview : sd = ⟨f.base, f.ptr + find_first f, f.n - find_first f⟩ := by
        rw [hsd_def, string_view.drop_front, if_neg hsn]
      have hsd_base : sd.base = S ++ [Char.ofNat 0] := by
        rw [hsview]
        exact hal.1
      have hsd_ptr : sd.ptr = f.ptr + find_first f := by rw [hsview]
      have hsd_n : sd.n = f.n - find_first f := by rw [hsview]
      have hsd_end : sd.ptr + sd.n = S.length := by
        rw [hsd_ptr, hsd_n]
        omega
      have hget0 : sd.get 0 = '%' := by
        rw [based_get_lt S sd 0 hsd_base (by rw [hsd_ptr]; omega), hsd_ptr]
        simpa using hhit
      have hcode : f.ptr + find_first f + 1 < S.length := by
        by_contra hge
        have hend : sd.get 1 = Char.ofNat 0 :=
          based_get_end S sd 1 hsd_base (by rw [hsd_ptr]; omega)
        rcases parse_spec_cases cp sd sp hsp with ⟨heq, _⟩ | ⟨_, t, ht, _⟩
        · rw [hget0, hend] at heq
          exact absurd heq (by decide)
        · rw [hend] at ht
          rcases to_type_cases _ _ ht with ⟨hc, _⟩ | ⟨hc, _⟩ <;> exact absurd hc (by decide)
      have hn2 : 2 ≤ sd.n := by
        rw [hsd_n]
        omega
      have hget1 : sd.get 1 = S.getD (f.ptr + find_first f + 1) (Char.ofNat 0) := by
        rw [based_get_lt S sd 1 hsd_base (by rw [hsd_ptr]; omega), hsd_ptr]
      have hsrc : spec_source sp.fspec = [sd.get 0, sd.get 1] := by
        rcases parse_spec_cases cp sd sp hsp with ⟨heq, hspv⟩ | ⟨hne, t, ht, hspv⟩
        · rw [hspv]
          simp only [spec_source]
          rw [heq]
        · rcases to_type_cases _ _ ht with ⟨hc, htt⟩ | ⟨hc, htt⟩ <;>
            · rw [hspv, htt]
              simp only [spec_source]
              rw [hget0, hc]
      have hsufv : sp.suffix = sd.drop_front 2 := parse_spec_suffix cp sd sp hsp
      have hlt : sp.suffix.n < f.n := by
        rw [hsufv, drop_front_n, hsd_n]
        omega
      have hsuf_cases : (sd.n = 2 ∧ sp.suffix = ⟨sd.base, sd.ptr, 0⟩) ∨
          (2 < sd.n ∧ sp.suffix = ⟨sd.base, sd.ptr + 2, sd.n - 2⟩) := by
        rw [hsufv, string_view.drop_front]
        by_cases h2 : sd.n ≤ 2
        · exact Or.inl ⟨by omega, by rw [if_pos h2]⟩
        · exact Or.inr ⟨by omega, by rw [if_neg h2]⟩
      have hal_suf : Aligned S sp.suffix := by
        rcases hsuf_cases with ⟨h2, hv⟩ | ⟨h2, hv⟩ <;> rw [hv]
        · refine ⟨hsd_base, ?_, Or.inr rfl⟩
          show sd.ptr + 0 ≤ S.length
          omega
        · refine ⟨hsd_base, ?_, Or.inl ?_⟩
          · show sd.ptr + 2 + (sd.n - 2) ≤ S.length
            omega
          · show sd.ptr + 2 + (sd.n - 2) = S.length
            omega
      have hsuf_chars : sp.suffix.chars = S.drop (f.ptr + find_first f + 2) := by
        rcases hsuf_cases with ⟨h2, hv⟩ | ⟨h2, hv⟩
        · have hempty : sp.suffix.chars = [] := by
            rw [hv]
            simp [string_view.chars]
          rw [hempty]
          exact (List.drop_eq_nil_of_le (by omega)).symm
        · have hf2 : sp.suffix.ptr + sp.suffix.n = S.length := by
            rw [hv]
            show sd.ptr + 2 + (sd.n - 2) = S.length
            omega
          rw [aligned_chars_full S sp.suffix hal_suf hf2, hv]
          show S.drop (sd.ptr + 2) = S.drop (f.ptr + find_first f + 2)
          rw [hsd_ptr]
      obtain ⟨ihc, ihwf⟩ := ih sp.next_index S sp.suffix r' (by omega) hal_suf hrec
      subst hre
      refine ⟨?_, ?_⟩
      · simp only [List.map_cons]
        rw [interleave_cons, ← ihc, hsrc, hget0, hget1, hsuf_chars, hchars]
        have htf : (f.take_front (find_first f)).chars =
            (S.drop f.ptr).take (find_first f) := by
          have htfv : f.take_front (find_first f) = ⟨f.base, f.ptr, find_first f⟩ := by
            rw [string_view.take_front, if_neg hsn]
          rw [htfv]
          refine chars_of_based S _ hal.1 ?_
          show f.ptr + find_first f ≤ S.length
          omega
        rw [htf]
        conv_lhs => rw [drop_split_two S f.ptr (find_first f) (Char.ofNat 0) hcode]
        rw [hhit]
        simp
      · intro v hv
        simp only [List.mem_cons] at hv
        rcases hv with hv | hv
        · subst hv
          rw [string_view.take_front, if_neg hsn]
          show f.ptr + find_first f ≤ f.base.length
          rw [hal.1]
          simp only [List.length_append, List.length_singleton]
          omega
        · exact ihwf v hv

/-! ## Renderer and validator bridging lemmas -/

theorem decay_integral (t : CppType) (h : is_integral t = true) : decay t = t := by
  cases t <;> first
    | rfl
    | (simp [is_integral] at h)

theorem mapM_length {α β : Type} : ∀ (l : List α) (f : α → Option β) (l' : List β),
    l.mapM f = some l' → l'.length = l.length := by
  intro l
  induction l with
  | nil =>
    intro f l' h
    simp only [List.mapM_nil, pure] at h
    cases h
    rfl
  | cons a as ih =>
    intro f l' h
    rw [List.mapM_cons] at h
    cases ha : f a with
    | none => rw [ha] at h; simp at h
    | some b =>
      rw [ha] at h
      cases has : as.mapM f with
      | none => rw [has] at h; simp at h
      | some bs =>
        rw [has] at h
        simp at h
        cases h
        simp [ih f bs has]

theorem interleave_eq_zip_flat : ∀ (xs ss : List (List Char)) (s0 : List Char),
    ss.length = xs.length → interleave (s0 :: ss) xs = s0 ++ zip_flat xs ss := by
  intro xs
  induction xs with
  | nil =>
    intro ss s0 h
    have : ss = [] := List.length_eq_zero.mp (by simpa using h)
    subst this
    rw [interleave_single]
    simp [zip_flat]
  | cons x xs ih =>
    intro ss s0 h
    cases ss with
    | nil => simp at h
    | cons s1 ss' =>
      rw [interleave_cons, ih ss' s1 (by simpa using h)]
      show s0 ++ (x ++ (s1 ++ zip_flat xs ss')) = s0 ++ ((x ++ s1) ++ zip_flat xs ss')
      simp [List.append_assoc]

theorem render_pieces_eq : ∀ (specs : List FormatSpec) (strs : List string_view)
    (args : List Arg) (pieces : List (List Char)),
    specs.mapM (spec_get_string args) = some pieces →
    strs.length = specs.length →
    (∀ v ∈ strs, v.ptr + v.n ≤ v.base.length) →
    render_pieces args specs strs =
      some (zip_flat pieces (strs.map string_view.chars)) := by
  intro specs
  induction specs with
  | nil =>
    intro strs args pieces hm hl hw
    simp only [List.mapM_nil, pure] at hm
    cases hm
    have : strs = [] := List.length_eq_zero.mp hl
    subst this
    rfl
  | cons fs fss ih =>
    intro strs args pieces hm hl hw
    cases strs with
    | nil => simp at hl
    | cons v vs =>
      rw [List.mapM_cons] at hm
      cases hx : spec_get_string args fs with
      | none => rw [hx] at hm; simp at hm
      | some x =>
        rw [hx] at hm
        cases hxs : fss.mapM (spec_get_string args) with
        | none => rw [hxs] at hm; simp at hm
        | some ps =>
          rw [hxs] at hm
          simp at hm
          have hrec := ih vs args ps hxs (by simpa using hl)
            (fun u hu => hw u (List.mem_cons_of_mem _ hu))
          simp only [render_pieces, hx, hrec, Option.bind_some]
          rw [view_to_static_eq_chars v (hw v (List.mem_cons_self _ _))]
          rw [← hm]
          rfl

/-- When validation passes and every specifier renders, the renderer's
output is exactly the literal spans interleaved with the rendered pieces,
in order. -/
theorem format_impl_interleave (f : FormatString) (args : List Arg)
    (pieces : List (List Char))
    (hck : check_format f (args.map Arg.ctype) = Except.ok ())
    (hm : f.specs.mapM (spec_get_string args) = some pieces)
    (hlen : f.strings.length = f.specs.length + 1)
    (hw : ∀ v ∈ f.strings, v.ptr + v.n ≤ v.base.length) :
    format_impl f args = some (interleave (f.strings.map string_view.chars) pieces) := by
  cases f with
  | mk strings options specs =>
    cases strings with
    | nil => simp at hlen
    | cons s0 rest =>
      have hrl : rest.length = specs.length := by simpa using hlen
      have hrp := render_pieces_eq specs rest args pieces hm hrl
        (fun v hv => hw v (List.mem_cons_of_mem _ hv))
      simp only [format_impl, hck, hrp, Option.map_some]
      rw [view_to_static_eq_chars s0 (hw s0 (List.mem_cons_self _ _))]
      rw [List.map_cons, interleave_eq_zip_flat pieces (rest.map string_view.chars)
        s0.chars (by simp [hrl, mapM_length specs (spec_get_string args) pieces hm])]
      rfl

/-- The two argument-count diagnostics of `check_format`, each equivalent
to its direction of the mismatch. -/
theorem check_format_count (f : FormatString) (ts : List CppType) :
    (check_format f ts = Except.error ValidationError.tooManyArguments ↔
      num_consuming f.specs < ts.length) ∧
    (check_format f ts = Except.error ValidationError.tooFewArguments ↔
      ts.length < num_consuming f.specs) := by
  unfold check_format
  rw [show f.specs.countP (fun s => decide (s.num ≠ -1)) = num_consuming f.specs from rfl]
  dsimp only
  split_ifs with h1 h2
  · constructor
    · simp [h1]
    · simp
      omega
  · constructor
    · simp
      omega
    · simp [h2]
  · cases hf : f.specs.find? (fun s => ! check_format_conversion s ts) <;>
      constructor <;> constructor <;> intro h
    · simp at h
    · exact absurd h h1
    · simp at h
    · exact absurd h h2
    · simp at h
    · exact absurd h h1
    · simp at h
    · exact absurd h h2

/-! ## Evaluation helpers for concrete patterns -/

theorem cf_format_eval (S : List Char) (args : List Arg) :
    cf_format S args = match parse_fuel (S.length + 1) 0 (string_view.of_literal S) with
      | none => none
      | some f => format_impl f args := by
  unfold cf_format
  rw [parse_literal_eval]

theorem getD_append_at (l₁ : List Char) (x : Char) (l₂ : List Char) (d : Char) :
    (l₁ ++ x :: l₂).getD l₁.length d = x := by
  rw [List.getD_append_right _ _ _ _ (le_refl _)]
  simp

theorem getD_append_at1 (l₁ : List Char) (x y : Char) (l₂ : List Char) (d : Char) :
    (l₁ ++ x :: y :: l₂).getD (l₁.length + 1) d = y := by
  rw [List.getD_append_right _ _ _ _ (by omega)]
  simp

/-! ## The claims -/

/-- C1: rendering the `%d` specifier on any integral value `N` yields the
single character `"0"` for `N = 0`, and otherwise the decimal digits of
`|N|` most-significant-first with no leading zeros, prefixed by `"-"`
exactly when `N < 0`; in particular `0`, `-7` and `120` render as `"0"`,
`"-7"` and `"120"`. -/
theorem claim1 :
    (∀ (t : CppType) (N : Int), is_integral t = true →
      cf_format ("%d".toList) [Arg.intA t N] = some (decimal_spec N)) ∧
    cf_format ("%d".toList) [Arg.intA CppType.intT 0] = some ("0".toList) ∧
    cf_format ("%d".toList) [Arg.intA CppType.intT (-7)] = some ("-7".toList) ∧
    cf_format ("%d".toList) [Arg.intA CppType.intT 120] = some ("120".toList) := by
  have hmain : ∀ (t : CppType) (N : Int), is_integral t = true →
      cf_format ("%d".toList) [Arg.intA t N] = some (int_get_string N) := by
    intro t N h
    have hp : parse_literal ("%d".toList) = some ⟨[⟨"%d".toList ++ [Char.ofNat 0], 0, 0⟩,
        ⟨"%d".toList ++ [Char.ofNat 0], 0, 0⟩], [⟨⟩], [⟨SpecType.typeCheckIntegral, 0⟩]⟩ := by
      rw [parse_literal_eval]
      decide
    have hred : cf_format ("%d".toList) [Arg.intA t N] =
        format_impl ⟨[⟨"%d".toList ++ [Char.ofNat 0], 0, 0⟩,
          ⟨"%d".toList ++ [Char.ofNat 0], 0, 0⟩], [⟨⟩],
          [⟨SpecType.typeCheckIntegral, 0⟩]⟩ [Arg.intA t N] := by
      unfold cf_format
      rw [hp]
    rw [hred]
    have hconv : check_format_conversion ⟨SpecType.typeCheckIntegral, 0⟩ [t] = true := by
      unfold check_format_conversion
      rw [if_pos (by decide)]
      show SpecType.check SpecType.typeCheckIntegral
        (decay ([t].getD (Int.toNat 0) CppType.intT)) = true
      rw [show [t].getD (Int.toNat 0) CppType.intT = t from rfl, decay_integral t h]
      exact h
    have hck : check_format ⟨[⟨"%d".toList ++ [Char.ofNat 0], 0, 0⟩,
        ⟨"%d".toList ++ [Char.ofNat 0], 0, 0⟩], [⟨⟩], [⟨SpecType.typeCheckIntegral, 0⟩]⟩
        (List.map Arg.ctype [Arg.intA t N]) = Except.ok () := by
      show check_format _ [t] = Except.ok ()
      unfold check_format
      dsimp only
      rw [if_neg (by simp), if_neg (by simp),
        List.find?_cons_of_neg _ (by simp [hconv])]
      rfl
    have hsg : spec_get_string [Arg.intA t N] ⟨SpecType.typeCheckIntegral, 0⟩ =
        some (int_get_string N) := by
      unfold spec_get_string
      rw [if_neg (by decide)]
      show Format_get_string (Arg.intA t N) = some (int_get_string N)
      simp [Format_get_string, decay_integral t h, h]
    unfold format_impl
    rw [hck]
    simp [render_pieces, hsg, view_to_static]
  refine ⟨fun t N h => by rw [hmain t N h, int_get_string_decimal], ?_, ?_, ?_⟩
  · rw [hmain CppType.intT 0 rfl, int_get_string_decimal]
    decide
  · rw [hmain CppType.intT (-7) rfl, int_get_string_decimal]
    have h7 : decimal_spec (-7) = "-7".toList := by
      unfold decimal_spec
      rw [if_neg (by decide), if_pos (by decide), show ((-7 : Int)).natAbs = 7 from rfl,
        dec_chars_lt_ten 7 (by norm_num) (by norm_num)]
      decide
    rw [h7]
  · rw [hmain CppType.intT 120 rfl, int_get_string_decimal]
    have h120 : decimal_spec 120 = "120".toList := by
      unfold decimal_spec
      rw [if_neg (by decide), if_neg (by decide), show ((120 : Int)).natAbs = 120 from rfl,
        dec_chars_ge_ten 120 (by norm_num)]
      norm_num
      rw [dec_chars_ge_ten 12 (by norm_num)]
      norm_num
      rw [dec_chars_lt_ten 1 (by norm_num) (by norm_num)]
      decide
    rw [h120]

theorem claim1_witness :
    is_integral CppType.intT = true ∧
    cf_format ("%d".toList) [Arg.intA CppType.intT (-7)] = some (decimal_spec (-7)) :=
  ⟨rfl, claim1.1 CppType.intT (-7) rfl⟩

/-- C2: validation fails with an argument-count mismatch exactly when the
number of supplied arguments differs from the number of consuming
specifiers, the two directions being reported distinctly; in particular
`%d` with zero arguments reports too few and with two arguments too
many. -/
theorem claim2 :
    (∀ (f : FormatString) (ts : List CppType),
      ((∃ e, check_format f ts = Except.error e ∧
          (e = ValidationError.tooManyArguments ∨ e = ValidationError.tooFewArguments)) ↔
        ts.length ≠ num_consuming f.specs) ∧
      (check_format f ts = Except.error ValidationError.tooManyArguments ↔
        num_consuming f.specs < ts.length) ∧
      (check_format f ts = Except.error ValidationError.tooFewArguments ↔
        ts.length < num_consuming f.specs)) ∧
    (parse_literal ("%d".toList)).map (fun F => check_format F []) =
      some (Except.error ValidationError.tooFewArguments) ∧
    (parse_literal ("%d".toList)).map
        (fun F => check_format F [CppType.intT, CppType.intT]) =
      some (Except.error ValidationError.tooManyArguments) := by
  refine ⟨fun f ts => ?_, ?_, ?_⟩
  · obtain ⟨hmany, hfew⟩ := check_format_count f ts
    refine ⟨⟨?_, ?_⟩, hmany, hfew⟩
    · rintro ⟨e, he, hor⟩
      rcases hor with rfl | rfl
      · have := hmany.mp he
        omega
      · have := hfew.mp he
        omega
    · intro hne
      rcases Nat.lt_or_ge ts.length (num_consuming f.specs) with hlt | hge
      · exact ⟨_, hfew.mpr hlt, Or.inr rfl⟩
      · have hlt2 : num_consuming f.specs < ts.length := by omega
        exact ⟨_, hmany.mpr hlt2, Or.inl rfl⟩
  · rw [parse_literal_eval]
    decide
  · rw [parse_literal_eval]
    decide

/-- C3 (counterexample): an array-of-char argument is not accepted by
`%s` — `std::decay` turns it into a pointer to char, which is not the
string slice the exact-type requirement demands, so validation reports a
type mismatch at position 0. -/
theorem claim3_counterexample :
    (parse_literal ("%s".toList)).map
        (fun F => check_format F [CppType.charArrayT 5]) =
      some (Except.error (ValidationError.typeMismatch 0)) ∧
    decay (CppType.charArrayT 5) = CppType.constCharPtrT := by
  constructor
  · rw [parse_literal_eval]
    decide
  · rfl

/-- C3 (amended): an exact-type requirement accepts an argument exactly
when its decayed type is precisely the required type; array-of-char decays
to pointer-to-char (not to a string slice) and is therefore rejected by
`%s`; an integer for `%s` and a string for `%d` fail with TypeMismatch at
position 0, and a string slice for `%s` is accepted. -/
theorem claim3 :
    (∀ U : CppType, SpecType.check SpecType.idStringView U = true ↔
      U = CppType.string_viewT) ∧
    (∀ sz : Nat, decay (CppType.charArrayT sz) = CppType.constCharPtrT) ∧
    (∀ (p : Int) (ts : List CppType), ¬ p = -1 →
      (check_format_conversion ⟨SpecType.idStringView, p⟩ ts = true ↔
        decay (ts.getD p.toNat CppType.intT) = CppType.string_viewT)) ∧
    (parse_literal ("%d".toList)).map
        (fun F => check_format F [CppType.string_viewT]) =
      some (Except.error (ValidationError.typeMismatch 0)) ∧
    (parse_literal ("%s".toList)).map (fun F => check_format F [CppType.intT]) =
      some (Except.error (ValidationError.typeMismatch 0)) ∧
    (parse_literal ("%s".toList)).map
        (fun F => check_format F [CppType.string_viewT]) = some (Except.ok ()) := by
  refine ⟨fun U => ?_, fun sz => rfl, fun p ts hp => ?_, ?_, ?_, ?_⟩
  · simp [SpecType.check]
  · unfold check_format_conversion
    rw [if_pos hp]
    simp [SpecType.check]
  · rw [parse_literal_eval]
    decide
  · rw [parse_literal_eval]
    decide
  · rw [parse_literal_eval]
    decide

theorem claim3_witness :
    check_format_conversion ⟨SpecType.idStringView, 0⟩ [CppType.string_viewT] = true ↔
      decay ([CppType.string_viewT].getD ((0 : Int)).toNat CppType.intT) =
        CppType.string_viewT :=
  claim3.2.2.1 0 [CppType.string_viewT] (by decide)

/-- C4: a pattern without the delimiter parses to zero specifiers and a
single literal span covering the whole pattern, and renders with no
arguments to the pattern itself, character for character. -/
theorem claim4 (S : List Char) (h : '%' ∉ S) :
    parse_literal S = some ⟨[string_view.of_literal S], [], []⟩ ∧
    cf_format S [] = some S := by
  have hfind : find_first (string_view.of_literal S) = S.length := by
    show string_view.find_list '%' (string_view.of_literal S).chars = S.length
    rw [chars_of_literal]
    exact find_list_of_not_mem '%' S h
  have hsz : (string_view.of_literal S).size = find_first (string_view.of_literal S) := by
    rw [hfind]
    rfl
  have hp : parse_literal S = some ⟨[string_view.of_literal S], [], []⟩ := by
    unfold parse_literal parse_format
    exact parse_base 0 _ hsz
  refine ⟨hp, ?_⟩
  have hred : cf_format S [] = format_impl ⟨[string_view.of_literal S], [], []⟩ [] := by
    unfold cf_format
    rw [hp]
  rw [hred]
  unfold format_impl
  rw [show check_format ⟨[string_view.of_literal S], [], []⟩
    (List.map Arg.ctype []) = Except.ok () from rfl]
  show some (view_to_static (string_view.of_literal S) ++ []) = some S
  rw [List.append_nil, view_to_static_eq_chars _
    (by show 0 + S.length ≤ (S ++ [Char.ofNat 0]).length; simp), chars_of_literal]

theorem claim4_witness :
    parse_literal ("ab".toList) = some ⟨[string_view.of_literal ("ab".toList)], [], []⟩ ∧
    cf_format ("ab".toList) [] = some ("ab".toList) :=
  claim4 ("ab".toList) (by decide)

/-- C5: positional indices are assigned `0, 1, 2, …` left-to-right over
exactly the argument-consuming specifiers; the doubled delimiter produces
a non-consuming literal specifier carrying no index (`-1`) that leaves the
counter unchanged and renders as the single delimiter character, so
`"a%%b"` renders to `"a%b"`. -/
theorem claim5 :
    (∀ (f : string_view) (r : FormatString), parse_format f = some r →
      consuming_nums r.specs = count_from 0 (num_consuming r.specs) ∧
      ∀ s ∈ r.specs, s.num = -1 → ∃ c, s.type = SpecType.litC c) ∧
    (∀ (c : Char) (args : List Arg),
      spec_get_string args ⟨SpecType.litC c, -1⟩ = some [c]) ∧
    cf_format ("a%%b".toList) [] = some ("a%b".toList) := by
  refine ⟨fun f r hr => ?_, fun c args => ?_, ?_⟩
  · exact parse_nums f.n 0 f r (le_refl _) (le_refl 0) hr
  · simp [spec_get_string]
  · rw [cf_format_eval]
    decide

theorem claim5_witness :
    consuming_nums [(⟨SpecType.litC '%', -1⟩ : FormatSpec)] =
      count_from 0 (num_consuming [(⟨SpecType.litC '%', -1⟩ : FormatSpec)]) ∧
    ∀ s ∈ [(⟨SpecType.litC '%', -1⟩ : FormatSpec)], s.num = -1 →
      ∃ c, s.type = SpecType.litC c := by
  have hp : parse_format (string_view.of_literal ("a%%b".toList)) =
      some ⟨[⟨"a%%b".toList ++ [Char.ofNat 0], 0, 1⟩,
        ⟨"a%%b".toList ++ [Char.ofNat 0], 3, 1⟩], [⟨⟩], [⟨SpecType.litC '%', -1⟩]⟩ := by
    unfold parse_format
    rw [parse_fuel_correct 5 0 _ (by decide)]
    decide
  exact (claim5.1 _ _ hp)

theorem aligned_of_literal (S : List Char) : Aligned S (string_view.of_literal S) := by
  refine ⟨rfl, ?_, Or.inl ?_⟩
  · show 0 + S.length ≤ S.length
    omega
  · show 0 + S.length = S.length
    omega

/-- A slice whose text starts with a delimiter-free span followed by an
unregistered conversion fails to parse, whatever the positional counter. -/
theorem parse_bad_head (cp : Int) (S : List Char) (f : string_view)
    (S₁ S₂ : List Char) (c : Char) (hal : Aligned S f)
    (hch : f.chars = S₁ ++ '%' :: c :: S₂) (h1 : '%' ∉ S₁)
    (hd : ¬ c = 'd') (hs : ¬ c = 's') (hp : ¬ c = '%') :
    parse_format_impl cp f = none := by
  have hn : f.chars.length = f.n := aligned_chars_len S f hal
  have hlen : f.n = S₁.length + (S₂.length + 2) := by
    rw [← hn, hch]
    simp only [List.length_append, List.length_cons]
  have hfull : f.ptr + f.n = S.length := by
    rcases hal.2.2 with h | h
    · exact h
    · omega
  have hchars : f.chars = S.drop f.ptr := aligned_chars_full S f hal hfull
  have hfind : find_first f = S₁.length := by
    show string_view.find_list '%' f.chars = S₁.length
    rw [hch]
    exact find_list_append '%' S₁ (c :: S₂) h1
  have hb : ¬ f.size = find_first f := by
    rw [hfind]
    show ¬ f.n = S₁.length
    omega
  have hsd : f.drop_front (find_first f) =
      ⟨f.base, f.ptr + S₁.length, f.n - S₁.length⟩ := by
    rw [hfind, string_view.drop_front, if_neg (by omega)]
  have hget0 : (f.drop_front (find_first f)).get 0 = '%' := by
    rw [hsd]
    show f.base.getD (f.ptr + S₁.length + 0) (Char.ofNat 0) = '%'
    rw [hal.1, List.getD_append _ _ _ _ (by omega), Nat.add_zero, ← getD_drop,
      ← hchars, hch]
    exact getD_append_at S₁ '%' (c :: S₂) (Char.ofNat 0)
  have hget1 : (f.drop_front (find_first f)).get 1 = c := by
    rw [hsd]
    show f.base.getD (f.ptr + S₁.length + 1) (Char.ofNat 0) = c
    rw [hal.1, List.getD_append _ _ _ _ (by omega),
      show f.ptr + S₁.length + 1 = f.ptr + (S₁.length + 1) from by omega, ← getD_drop,
      ← hchars, hch]
    exact getD_append_at1 S₁ '%' c S₂ (Char.ofNat 0)
  have hps : parse_spec cp (f.drop_front (find_first f)) = none := by
    unfold parse_spec
    rw [if_neg (by rw [hget0, hget1]; exact fun hh => hp hh.symm)]
    unfold parse_spec_dispatch
    rw [hget1, to_type_none c hd hs]
    rfl
  exact parse_none_eq cp f hb hps

/-- Failure propagates: any run of well-formed segments (delimiter-free
literal plus a registered conversion or an escape) in front of an
unregistered conversion still makes the whole parse fail — the `none` of
the recursive call flows back through every successfully parsed
specifier. -/
theorem parse_fail_after_segs : ∀ (L : List (List Char × Char)) (cp : Int)
    (S : List Char) (f : string_view) (S₁ S₂ : List Char) (c : Char),
    (∀ p ∈ L, '%' ∉ p.1 ∧ (p.2 = '%' ∨ p.2 = 'd' ∨ p.2 = 's')) →
    Aligned S f → f.chars = seg_flat L ++ S₁ ++ '%' :: c :: S₂ →
    '%' ∉ S₁ → ¬ c = 'd' → ¬ c = 's' → ¬ c = '%' →
    parse_format_impl cp f = none := by
  intro L
  induction L with
  | nil =>
    intro cp S f S₁ S₂ c _ hal hch h1 hd hs hp
    exact parse_bad_head cp S f S₁ S₂ c hal (by simpa [seg_flat] using hch) h1 hd hs hp
  | cons pr L' ih =>
    obtain ⟨lit, code⟩ := pr
    intro cp S f S₁ S₂ c hL hal hch h1 hd hs hp
    have hLh : '%' ∉ lit ∧ (code = '%' ∨ code = 'd' ∨ code = 's') :=
      hL (lit, code) (List.mem_cons_self _ _)
    have hLt : ∀ p ∈ L', '%' ∉ p.1 ∧ (p.2 = '%' ∨ p.2 = 'd' ∨ p.2 = 's') :=
      fun p hmem => hL p (List.mem_cons_of_mem _ hmem)
    have hch' : f.chars = lit ++ '%' :: code :: (seg_flat L' ++ S₁ ++ '%' :: c :: S₂) := by
      rw [hch]
      simp [seg_flat, List.append_assoc]
    have hn : f.chars.length = f.n := aligned_chars_len S f hal
    have hlen : f.n = lit.length + ((seg_flat L' ++ S₁ ++ '%' :: c :: S₂).length + 2) := by
      rw [← hn, hch']
      simp only [List.length_append, List.length_cons]
    have hrl : 2 ≤ (seg_flat L' ++ S₁ ++ '%' :: c :: S₂).length := by
      simp only [List.length_append, List.length_cons]
      omega
    have hfull : f.ptr + f.n = S.length := by
      rcases hal.2.2 with h | h
      · exact h
      · omega
    have hchars : f.chars = S.drop f.ptr := aligned_chars_full S f hal hfull
    have hfind : find_first f = lit.length := by
      show string_view.find_list '%' f.chars = lit.length
      rw [hch']
      exact find_list_append '%' lit (code :: (seg_flat L' ++ S₁ ++ '%' :: c :: S₂)) hLh.1
    have hb : ¬ f.size = find_first f := by
      rw [hfind]
      show ¬ f.n = lit.length
      omega
    have hsd : f.drop_front (find_first f) =
        ⟨f.base, f.ptr + lit.length, f.n - lit.length⟩ := by
      rw [hfind, string_view.drop_front, if_neg (by omega)]
    have hget0 : (f.drop_front (find_first f)).get 0 = '%' := by
      rw [hsd]
      show f.base.getD (f.ptr + lit.length + 0) (Char.ofNat 0) = '%'
      rw [hal.1, List.getD_append _ _ _ _ (by omega), Nat.add_zero, ← getD_drop,
        ← hchars, hch']
      exact getD_append_at lit '%' _ (Char.ofNat 0)
    have hget1 : (f.drop_front (find_first f)).get 1 = code := by
      rw [hsd]
      show f.base.getD (f.ptr + lit.length + 1) (Char.ofNat 0) = code
      rw [hal.1, List.getD_append _ _ _ _ (by omega),
        show f.ptr + lit.length + 1 = f.ptr + (lit.length + 1) from by omega, ← getD_drop,
        ← hchars, hch']
      exact getD_append_at1 lit '%' code _ (Char.ofNat 0)
    obtain ⟨sp, hsp⟩ : ∃ sp, parse_spec cp (f.drop_front (find_first f)) = some sp := by
      rcases hLh.2 with hcode | hcode | hcode
      · refine ⟨⟨⟨SpecType.litC ((f.drop_front (find_first f)).get 0), -1⟩, ⟨⟩,
          (f.drop_front (find_first f)).drop_front 2, cp⟩, ?_⟩
        unfold parse_spec
        rw [if_pos (by rw [hget0, hget1, hcode])]
      · refine ⟨⟨⟨SpecType.typeCheckIntegral, cp⟩, ⟨⟩,
          (f.drop_front (find_first f)).drop_front 2, cp + 1⟩, ?_⟩
        unfold parse_spec
        rw [if_neg (by rw [hget0, hget1, hcode]; decide)]
        unfold parse_spec_dispatch
        rw [hget1, hcode]
        rfl
      · refine ⟨⟨⟨SpecType.idStringView, cp⟩, ⟨⟩,
          (f.drop_front (find_first f)).drop_front 2, cp + 1⟩, ?_⟩
        unfold parse_spec
        rw [if_neg (by rw [hget0, hget1, hcode]; decide)]
        unfold parse_spec_dispatch
        rw [hget1, hcode]
        rfl
    have hsuf : sp.suffix = ⟨f.base, f.ptr + lit.length + 2, f.n - lit.length - 2⟩ := by
      rw [parse_spec_suffix cp _ sp hsp, hsd, string_view.drop_front,
        if_neg (by show ¬ (f.n - lit.length ≤ 2); omega)]
    have hal_suf : Aligned S sp.suffix := by
      rw [hsuf]
      refine ⟨hal.1, ?_, Or.inl ?_⟩
      · show f.ptr + lit.length + 2 + (f.n - lit.length - 2) ≤ S.length
        omega
      · show f.ptr + lit.length + 2 + (f.n - lit.length - 2) = S.length
        omega
    have hch_suf : sp.suffix.chars = seg_flat L' ++ S₁ ++ '%' :: c :: S₂ := by
      rw [aligned_chars_full S sp.suffix hal_suf (by
          rw [hsuf]
          show f.ptr + lit.length + 2 + (f.n - lit.length - 2) = S.length
          omega),
        hsuf]
      show S.drop (f.ptr + lit.length + 2) = _
      rw [show f.ptr + lit.length + 2 = f.ptr + (lit.length + 2) from by omega,
        ← List.drop_drop, ← hchars, hch',
        show lit.length + 2 = (lit ++ ['%', code]).length from by simp,
        show lit ++ '%' :: code :: (seg_flat L' ++ S₁ ++ '%' :: c :: S₂) =
          (lit ++ ['%', code]) ++ (seg_flat L' ++ S₁ ++ '%' :: c :: S₂) from by simp,
        List.drop_left]
    have hrec : parse_format_impl sp.next_index sp.suffix = none :=
      ih sp.next_index S sp.suffix S₁ S₂ c hLt hal_suf hch_suf h1 hd hs hp
    rw [parse_cons_eq cp f hb sp hsp, hrec]
    rfl

/-- C6: every pattern containing a two-character conversion whose code is
neither `d`, `s` nor the doubled delimiter fails to parse: any run of
well-formed segments (delimiter-free literal plus `%d`, `%s` or the
escape `%%`) may precede the unregistered conversion, and the failure
propagates back through those successfully parsed specifiers — no partial
pattern is returned, and the composed format call fails before any
rendering, for any arguments. -/
theorem claim6 (L : List (List Char × Char)) (S₁ S₂ : List Char) (c : Char)
    (hL : ∀ p ∈ L, '%' ∉ p.1 ∧ (p.2 = '%' ∨ p.2 = 'd' ∨ p.2 = 's'))
    (h1 : '%' ∉ S₁) (hd : ¬ c = 'd') (hs : ¬ c = 's') (hp : ¬ c = '%') :
    parse_literal (seg_flat L ++ S₁ ++ '%' :: c :: S₂) = none ∧
    ∀ args : List Arg, cf_format (seg_flat L ++ S₁ ++ '%' :: c :: S₂) args = none := by
  have hnone : parse_literal (seg_flat L ++ S₁ ++ '%' :: c :: S₂) = none := by
    unfold parse_literal parse_format
    exact parse_fail_after_segs L 0 (seg_flat L ++ S₁ ++ '%' :: c :: S₂)
      (string_view.of_literal (seg_flat L ++ S₁ ++ '%' :: c :: S₂)) S₁ S₂ c hL
      (aligned_of_literal _) (chars_of_literal _) h1 hd hs hp
  refine ⟨hnone, fun args => ?_⟩
  unfold cf_format
  rw [hnone]

theorem claim6_witness :
    parse_literal (seg_flat [(['a'], 'd')] ++ [] ++ '%' :: 'z' :: []) = none ∧
    ∀ args : List Arg,
      cf_format (seg_flat [(['a'], 'd')] ++ [] ++ '%' :: 'z' :: []) args = none :=
  claim6 [(['a'], 'd')] [] [] 'z' (by decide) (by decide) (by decide) (by decide)
    (by decide)

/-- C7: every parser result has one more literal span than specifiers, the
input text is exactly the spans interleaved with the specifiers' sources
in original order, and the renderer concatenates the spans with the
rendered specifiers in that same interleaved order. -/
theorem claim7 (cp : Int) (S : List Char) (f : string_view) (r : FormatString)
    (hal : Aligned S f) (hr : parse_format_impl cp f = some r) :
    r.strings.length = r.specs.length + 1 ∧
    f.chars = interleave (r.strings.map string_view.chars) (r.specs.map spec_source) ∧
    ∀ (args : List Arg) (pieces : List (List Char)),
      check_format r (args.map Arg.ctype) = Except.ok () →
      r.specs.mapM (spec_get_string args) = some pieces →
      format_impl r args = some (interleave (r.strings.map string_view.chars) pieces) := by
  have hshape := parse_shape f.n cp f r (le_refl _) hr
  have hrecon := parse_reconstruct f.n cp S f r (le_refl _) hal hr
  exact ⟨hshape.1, hrecon.1, fun args pieces hck hm =>
    format_impl_interleave r args pieces hck hm hshape.1 hrecon.2⟩

theorem claim7_witness :
    (⟨[string_view.of_literal ("ab".toList)], [], []⟩ : FormatString).strings.length =
      (⟨[string_view.of_literal ("ab".toList)], [], []⟩ : FormatString).specs.length + 1 ∧
    (string_view.of_literal ("ab".toList)).chars =
      interleave
        ((⟨[string_view.of_literal ("ab".toList)], [], []⟩ : FormatString).strings.map
          string_view.chars)
        ((⟨[string_view.of_literal ("ab".toList)], [], []⟩ : FormatString).specs.map
          spec_source) ∧
    ∀ (args : List Arg) (pieces : List (List Char)),
      check_format ⟨[string_view.of_literal ("ab".toList)], [], []⟩
        (args.map Arg.ctype) = Except.ok () →
      (⟨[string_view.of_literal ("ab".toList)], [], []⟩ : FormatString).specs.mapM
        (spec_get_string args) = some pieces →
      format_impl ⟨[string_view.of_literal ("ab".toList)], [], []⟩ args =
        some (interleave
          ((⟨[string_view.of_literal ("ab".toList)], [], []⟩ : FormatString).strings.map
            string_view.chars) pieces) :=
  claim7 0 ("ab".toList) (string_view.of_literal ("ab".toList))
    ⟨[string_view.of_literal ("ab".toList)], [], []⟩
    (by exact ⟨rfl, by decide, Or.inl (by decide)⟩)
    (by rw [parse_fuel_correct 3 0 _ (by decide)]; decide)

/-- C8: the parser terminates because each recursive step strictly shrinks
the remaining slice: whenever a delimiter is found inside the slice and
the specifier at it parses, the suffix passed to the recursive call is
strictly shorter than the slice. -/
theorem claim8 (cp : Int) (f : string_view) (sp : Spec)
    (hb : find_first f < f.size)
    (hsp : parse_spec cp (f.drop_front (find_first f)) = some sp) :
    sp.suffix.size < f.size := by
  have hx := parse_step_suffix_lt cp f sp
    (by simp only [string_view.size] at hb ⊢; omega) hsp
  simpa [string_view.size] using hx

theorem claim8_witness :
    find_first (string_view.of_literal ("a%db".toList)) <
      (string_view.of_literal ("a%db".toList)).size ∧
    (⟨⟨SpecType.typeCheckIntegral, 0⟩, ⟨⟩,
      ⟨"a%db".toList ++ [Char.ofNat 0], 3, 1⟩, 1⟩ : Spec).suffix.size <
      (string_view.of_literal ("a%db".toList)).size :=
  ⟨by decide, claim8 0 (string_view.of_literal ("a%db".toList))
    ⟨⟨SpecType.typeCheckIntegral, 0⟩, ⟨⟩, ⟨"a%db".toList ++ [Char.ofNat 0], 3, 1⟩, 1⟩
    (by decide) (by decide)⟩

/-- C9: slicing is total with clamping semantics — both operations keep the
view inside the original bounds, and for a length at least the view's size
`prefix` returns the view unchanged while `remove_prefix` returns an empty
view over the same data pointer. -/
theorem claim9 (s : string_view) (len : Nat) :
    ((s.take_front len).base = s.base ∧ (s.take_front len).ptr = s.ptr ∧
      (s.take_front len).n ≤ s.n) ∧
    ((s.drop_front len).base = s.base ∧ s.ptr ≤ (s.drop_front len).ptr ∧
      (s.drop_front len).ptr + (s.drop_front len).n ≤ s.ptr + s.n) ∧
    (s.n ≤ len → s.take_front len = s ∧ s.drop_front len = ⟨s.base, s.ptr, 0⟩) := by
  unfold string_view.take_front string_view.drop_front
  split_ifs with h
  · refine ⟨⟨rfl, rfl, le_refl _⟩, ⟨rfl, le_refl _, ?_⟩, fun _ => ⟨rfl, rfl⟩⟩
    show s.ptr + 0 ≤ s.ptr + s.n
    omega
  · refine ⟨⟨rfl, rfl, ?_⟩, ⟨rfl, ?_, ?_⟩, fun hle => absurd hle h⟩
    · show len ≤ s.n
      omega
    · show s.ptr ≤ s.ptr + len
      omega
    · show s.ptr + len + (s.n - len) ≤ s.ptr + s.n
      omega

theorem claim9_witness :
    (⟨"ab".toList, 0, 2⟩ : string_view).n ≤ 3 ∧
    ((⟨"ab".toList, 0, 2⟩ : string_view).take_front 3 = ⟨"ab".toList, 0, 2⟩ ∧
      (⟨"ab".toList, 0, 2⟩ : string_view).drop_front 3 = ⟨"ab".toList, 0, 0⟩) :=
  ⟨by decide, (claim9 ⟨"ab".toList, 0, 2⟩ 3).2.2 (by decide)⟩

/-- C10: the integer renderer never takes the absolute value of the whole
argument: the recursion runs on `N` itself using truncating `N / 10`, the
absolute value is applied only to single-digit remainders `N % 10`, every
value in the recursion trace stays within the original magnitude, and the
most negative value `-2^(w-1)` of a `w`-bit signed type renders to its
correct decimal string. -/
theorem claim10 (w : Nat) (hw : 1 ≤ w) :
    int_get_string (-((2 ^ (w - 1) : Nat) : Int)) =
      '-' :: dec_chars (2 ^ (w - 1)) ∧
    (∀ M ∈ get_string_rec_calls (-((2 ^ (w - 1) : Nat) : Int)),
      M.natAbs ≤ 2 ^ (w - 1) ∧ (M.tmod 10).natAbs < 10) ∧
    get_string_rec (-((2 ^ (w - 1) : Nat) : Int)) =
      (get_string_rec_calls (-((2 ^ (w - 1) : Nat) : Int))).reverse.map
        (fun M => Char.ofNat ('0'.toNat + (M.tmod 10).natAbs)) := by
  have hpos : 0 < 2 ^ (w - 1) := by positivity
  have habs : ((-((2 ^ (w - 1) : Nat) : Int))).natAbs = 2 ^ (w - 1) := by
    rw [Int.natAbs_neg, Int.natAbs_ofNat]
  have hnz : (-((2 ^ (w - 1) : Nat) : Int)) ≠ 0 := by
    intro h0
    have h1 := congrArg Int.natAbs h0
    rw [habs] at h1
    simp only [Int.natAbs_zero] at h1
    omega
  have hneg : (-((2 ^ (w - 1) : Nat) : Int)) < 0 := by
    have hc : (0 : Int) < ((2 ^ (w - 1) : Nat) : Int) := by exact_mod_cast hpos
    omega
  refine ⟨?_, ?_, ?_⟩
  · unfold int_get_string
    rw [if_neg hnz, if_pos hneg,
      get_string_rec_digits ((-((2 ^ (w - 1) : Nat) : Int))).natAbs _ (le_refl _) hnz,
      habs]
  · intro M hM
    constructor
    · have hle := calls_natAbs_le ((-((2 ^ (w - 1) : Nat) : Int))).natAbs _ M
        (le_refl _) hM
      rw [habs] at hle
      exact hle
    · have h10 : ((10 : Nat) : Int) = (10 : Int) := rfl
      rw [← h10, natAbs_tmod_nat M 10]
      exact Nat.mod_lt _ (by norm_num)
  · exact get_string_rec_eq_calls ((-((2 ^ (w - 1) : Nat) : Int))).natAbs _ (le_refl _)

theorem claim10_witness :
    int_get_string (-((2 ^ (8 - 1) : Nat) : Int)) = '-' :: dec_chars (2 ^ (8 - 1)) ∧
    '-' :: dec_chars (2 ^ (8 - 1)) = "-128".toList := by
  refine ⟨(claim10 8 (by norm_num)).1, ?_⟩
  rw [show (2 ^ (8 - 1) : Nat) = 128 from by norm_num,
    dec_chars_ge_ten 128 (by norm_num)]
  norm_num
  rw [dec_chars_ge_ten 12 (by norm_num)]
  norm_num
  rw [dec_chars_lt_ten 1 (by norm_num) (by norm_num)]
  decide
